import Mathlib

/-!
Verification of the core of the `cnn-visualizer` repository: the
incremental training loop with cooperative pause/stop control and
epoch metric aggregation (`src/hooks/useModel.ts`), the batch slicer
(`src/utils/mnistLoader.ts`), and the class-activation-map computation
(the `CAMViewer` component and the `hotColor` colormap helper).

Numeric values produced by the external tensor library (per-batch loss
and accuracy, validation metrics, activation values) are modelled as
rationals supplied by an oracle; machine integers are modelled as `Nat`.
-/

namespace CnnVis

/-! ## Batch slicing (`mnistLoader.ts`, `getBatch` and the batch count
computed at the top of `train` in `useModel.ts`).

`getBatch` slices rows out of the image tensor (shape `[N,28,28,1]`) and
the label tensor (shape `[N,10]`); we record the slice bounds and the
number of rows each of the two `slice` calls requests. -/

/-- `numBatches = Math.ceil(numTrain / batchSize)` (`useModel.ts` line 125),
as exact ceiling division on naturals. -/
def numBatches (numTrain batchSize : ℕ) : ℕ :=
  (numTrain + batchSize - 1) / batchSize

/-- Result of `getBatch`: the computed slice bounds and the row counts
requested from `images.slice` and `labels.slice`. -/
structure Batch where
  startIndex : ℕ
  endIndex : ℕ
  imagesRows : ℕ
  labelsRows : ℕ
  deriving Repr, DecidableEq

/-- `getBatch(images, labels, batchSize, batchIndex)` from `mnistLoader.ts`:
`startIndex = (batchIndex * batchSize) % numExamples`,
`endIndex = Math.min(startIndex + batchSize, numExamples)`; the image slice
takes `endIndex - startIndex` rows and so does the label slice. -/
def getBatch (numExamples batchSize batchIndex : ℕ) : Batch :=
  let startIndex := (batchIndex * batchSize) % numExamples
  let endIndex := min (startIndex + batchSize) numExamples
  { startIndex := startIndex
    endIndex := endIndex
    imagesRows := endIndex - startIndex
    labelsRows := endIndex - startIndex }

/-! ## Class-activation map (`CAMViewer`, function `computeCAM`). -/

/-- Layer kinds as reported by `layer.getClassName()`. -/
inductive LayerKind where
  | conv2d
  | maxPooling2d
  | flattenL
  | dense
  | dropout
  deriving Repr, DecidableEq

/-- The body of the downward scan of `computeCAM` starting at index `i`:
return the first index, scanning down, whose layer is `Conv2D`. -/
def findLastConvFrom (layers : List LayerKind) : ℕ → Option ℕ
  | 0 => if layers.getD 0 .dense = .conv2d then some 0 else none
  | i + 1 =>
    if layers.getD (i + 1) .dense = .conv2d then some (i + 1)
    else findLastConvFrom layers i

/-- The search for the last convolutional layer in `computeCAM`:
`for (let i = model.layers.length - 1; i >= 0; i--) if (... === 'Conv2D') ...`
— the first index found scanning from the highest index down. -/
def findLastConv (layers : List LayerKind) : Option ℕ :=
  match layers.length with
  | 0 => none
  | n + 1 => findLastConvFrom layers n

/-- The inner accumulation `weightedSum += convOutputData[y][x][f]` over
`f = 0 .. numFilters-1` in `computeCAM`. -/
def weightedSum (numFilters : ℕ) (act : ℕ → ℕ → ℕ → ℚ) (y x : ℕ) : ℚ :=
  (List.range numFilters).foldl (fun acc f => acc + act y x f) 0

/-- `cam[y][x] = Math.max(0, weightedSum)` (the ReLU step of `computeCAM`). -/
def camPre (numFilters : ℕ) (act : ℕ → ℕ → ℕ → ℚ) (y x : ℕ) : ℚ :=
  max 0 (weightedSum numFilters act y x)

/-- `cam.flat()`: the H×W grid flattened row-major into one list. -/
def flatCam (h w : ℕ) (g : ℕ → ℕ → ℚ) : List ℚ :=
  (List.range h).flatMap (fun y => (List.range w).map (fun x => g y x))

/-- `Math.max(...flatCam)` on a non-empty list (the degenerate empty case,
which JavaScript maps to `-Infinity`, is irrelevant: the grid is H×W with
`H, W ≥ 1`; we return `0` there). -/
def listMax : List ℚ → ℚ
  | [] => 0
  | v :: vs => vs.foldl max v

/-- `Math.min(...flatCam)` (same conventions as `listMax`). -/
def listMin : List ℚ → ℚ
  | [] => 0
  | v :: vs => vs.foldl min v

/-- `const range = maxVal - minVal || 1;` — the JS `||` replaces a zero
difference by `1`. -/
def camRange (h w : ℕ) (g : ℕ → ℕ → ℚ) : ℚ :=
  let d := listMax (flatCam h w g) - listMin (flatCam h w g)
  if d = 0 then 1 else d

/-- The normalization step `cam[y][x] = (cam[y][x] - minVal) / range`. -/
def camNorm (h w : ℕ) (g : ℕ → ℕ → ℚ) (y x : ℕ) : ℚ :=
  (g y x - listMin (flatCam h w g)) / camRange h w g

/-- JavaScript `Math.round` on the non-negative values arising here:
round half away from zero, i.e. `⌊q + 1/2⌋`. -/
def jsRound (q : ℚ) : ℤ :=
  ⌊q + 1 / 2⌋

/-- An RGB triple (each channel an integer, produced clamped to 0..255). -/
structure RGB where
  r : ℤ
  g : ℤ
  b : ℤ
  deriving Repr, DecidableEq

/-- `hotColor` from the tensor-visualization utilities:
`r = Math.round(255 * Math.min(1, t * 3))`,
`g = Math.round(255 * Math.max(0, Math.min(1, (t - 0.33) * 3)))`,
`b = Math.round(255 * Math.max(0, Math.min(1, (t - 0.67) * 3)))`. -/
def hotColor (t : ℚ) : RGB :=
  { r := jsRound (255 * min 1 (t * 3))
    g := jsRound (255 * max 0 (min 1 ((t - 33 / 100) * 3)))
    b := jsRound (255 * max 0 (min 1 ((t - 67 / 100) * 3))) }

/-- The inline hot colormap of `computeCAM` (`CAMViewer`):
`r = Math.min(255, Math.round(camVal * 3 * 255))`,
`g = Math.min(255, Math.round(Math.max(0, camVal - 0.33) * 3 * 255))`,
`b = Math.min(255, Math.round(Math.max(0, camVal - 0.67) * 3 * 255))`. -/
def camHot (camVal : ℚ) : RGB :=
  { r := min 255 (jsRound (camVal * 3 * 255))
    g := min 255 (jsRound (max 0 (camVal - 33 / 100) * 3 * 255))
    b := min 255 (jsRound (max 0 (camVal - 67 / 100) * 3 * 255)) }

/-! ## The training loop (`useModel.ts`, function `train`).

The loop is an `async` function; the `stopTrainingRef` / `pauseTrainingRef`
flags can only change value at `await` points (JavaScript is single
threaded).  We therefore index time by a *tick* counter that advances by
one at every `await` (`setTimeout` inside a pause wait, `trainOnBatch`,
`tf.nextFrame`, each `data()` call of the validation step); all flag reads
between two consecutive awaits see the same values.  The environment gives
the flag values per tick, and gives the external model's numeric answers
as oracles indexed by the number of `trainOnBatch` calls made so far
(each call mutates the weights, so results depend exactly on that count).

A pause wait (`while (pauseRef && !stopRef) await sleep(100)`) can run
forever if the flags never release it, so the loop takes a fuel bound for
each wait and returns `none` when the fuel runs out. -/

/-- External environment of one `train()` run. -/
structure TrainEnv where
  stopFlag : ℕ → Bool
  pauseFlag : ℕ → Bool
  batchLoss : ℕ → ℚ
  batchAcc : ℕ → ℚ
  valLoss : ℕ → ℚ
  valAcc : ℕ → ℚ

/-- The run-local `history` object of `train` (and the published
`trainingHistory` state): four per-epoch series. -/
structure TrainingHistory where
  loss : List ℚ
  accuracy : List ℚ
  valLoss : List ℚ
  valAccuracy : List ℚ
  deriving Repr, DecidableEq

/-- The empty history `{ loss: [], accuracy: [], valLoss: [], valAccuracy: [] }`. -/
def TrainingHistory.empty : TrainingHistory :=
  ⟨[], [], [], []⟩

/-- One `trainOnBatch` call: the (0-based) epoch and batch indices and the
tick of the synchronous region in which the call was issued. -/
structure BatchCall where
  epoch : ℕ
  batch : ℕ
  tick : ℕ
  deriving Repr, DecidableEq

/-- State coming out of the inner batch loop of one epoch. -/
structure EpochBatchResult where
  tick : ℕ
  calls : ℕ
  epochLoss : ℚ
  epochAcc : ℚ
  batchCount : ℕ
  trace : List BatchCall
  stopped : Bool
  deriving Repr, DecidableEq

/-- Result of a whole `train()` run.  `stoppedDuringEpoch = some k` means
the loop broke out of the epoch loop while the (1-based) epoch `k` was in
progress; `none` means every requested epoch ran.  `valCalls` counts the
`model.evaluate` calls and `calls` the `trainOnBatch` calls. -/
structure RunResult where
  history : TrainingHistory
  completedEpochs : ℕ
  trace : List BatchCall
  valCalls : ℕ
  stoppedDuringEpoch : Option ℕ
  finalTick : ℕ
  calls : ℕ
  deriving Repr, DecidableEq

/-- The cooperative pause wait
`while (pauseTrainingRef.current && !stopTrainingRef.current) await sleep(100)`:
each iteration passes one `await`, advancing the tick.  Returns the tick at
which the wait exits, or `none` if the fuel is exhausted. -/
def pauseWait (env : TrainEnv) : ℕ → ℕ → Option ℕ
  | 0, t => if env.pauseFlag t && !env.stopFlag t then none else some t
  | fuel + 1, t =>
    if env.pauseFlag t && !env.stopFlag t then pauseWait env fuel (t + 1)
    else some t

/-- The inner loop `for (let batch = 0; batch < numBatches; batch++)` of one
epoch, lines 143–181 of `useModel.ts`: check stop, pause-wait, check stop,
slice a batch and `await trainOnBatch` (one tick), accumulate loss/accuracy
and the batch count, and `await tf.nextFrame()` (one more tick) when
`batch % 10 === 0`.  `remaining` counts the batches still to run and `b` is
the current batch index. -/
def batchLoop (env : TrainEnv) (fuel epoch : ℕ) :
    ℕ → ℕ → ℕ → ℕ → ℚ → ℚ → ℕ → List BatchCall → Option EpochBatchResult
  | 0, _b, t, calls, eLoss, eAcc, bCount, tr =>
    some ⟨t, calls, eLoss, eAcc, bCount, tr, false⟩
  | remaining + 1, b, t, calls, eLoss, eAcc, bCount, tr =>
    if env.stopFlag t then some ⟨t, calls, eLoss, eAcc, bCount, tr, true⟩
    else
      match pauseWait env fuel t with
      | none => none
      | some t1 =>
        if env.stopFlag t1 then some ⟨t1, calls, eLoss, eAcc, bCount, tr, true⟩
        else
          let t2 := if b % 10 = 0 then t1 + 2 else t1 + 1
          batchLoop env fuel epoch remaining (b + 1) t2 (calls + 1)
            (eLoss + env.batchLoss calls) (eAcc + env.batchAcc calls)
            (bCount + 1) (tr ++ [⟨epoch, b, t1⟩])

/-- The outer loop `for (let epoch = 0; epoch < epochs; epoch++)` of
`train`, lines 130–216 of `useModel.ts`: check stop (break), pause-wait,
check stop (break), run the batch loop, check stop again (break — this is
the line-183 check, read in the same synchronous region as an inner
break), then evaluate the validation set (two `data()` awaits), push the
mean batch loss/accuracy and the validation metrics onto the history,
bump `completedEpochs`, and `await tf.nextFrame()`.  A break while the
0-based epoch `e` was in progress reports `stoppedDuringEpoch = some (e+1)`. -/
def epochLoop (env : TrainEnv) (fuel nBatches : ℕ) :
    ℕ → ℕ → ℕ → ℕ → TrainingHistory → ℕ → ℕ → List BatchCall → Option RunResult
  | 0, _e, t, calls, hist, ce, vc, tr =>
    some ⟨hist, ce, tr, vc, none, t, calls⟩
  | remaining + 1, e, t, calls, hist, ce, vc, tr =>
    if env.stopFlag t then some ⟨hist, ce, tr, vc, some (e + 1), t, calls⟩
    else
      match pauseWait env fuel t with
      | none => none
      | some t1 =>
        if env.stopFlag t1 then some ⟨hist, ce, tr, vc, some (e + 1), t1, calls⟩
        else
          match batchLoop env fuel e nBatches 0 t1 calls 0 0 0 tr with
          | none => none
          | some br =>
            if br.stopped then
              some ⟨hist, ce, br.trace, vc, some (e + 1), br.tick, br.calls⟩
            else if env.stopFlag br.tick then
              some ⟨hist, ce, br.trace, vc, some (e + 1), br.tick, br.calls⟩
            else
              let hist' : TrainingHistory :=
                ⟨hist.loss ++ [br.epochLoss / (br.batchCount : ℚ)],
                 hist.accuracy ++ [br.epochAcc / (br.batchCount : ℚ)],
                 hist.valLoss ++ [env.valLoss br.calls],
                 hist.valAccuracy ++ [env.valAcc br.calls]⟩
              epochLoop env fuel nBatches remaining (e + 1) (br.tick + 3)
                br.calls hist' (ce + 1) (vc + 1) br.trace

/-- One `train(options)` run against a model and dataset that are present:
computes `numBatches` and runs the epoch loop from tick 0 with a fresh
run-local history. -/
def trainRun (env : TrainEnv) (fuel epochs numTrain batchSize : ℕ) :
    Option RunResult :=
  epochLoop env fuel (numBatches numTrain batchSize) epochs 0 0 0
    TrainingHistory.empty 0 0 []

/-! ## Hook-level state (`useModel.ts`).

The pieces of the `useModel` hook state that the training, model-creation
and model-loading operations touch.  A model handle is identified by a
number; `nextId` supplies a fresh identity for each created/loaded model. -/

/-- `ModelSource` of `useModel.ts` (`'new' | 'loaded' | 'pretrained'`;
the `null` case is `none` of the surrounding `Option`). -/
inductive ModelSource where
  | new
  | loaded
  | pretrained
  deriving Repr, DecidableEq

/-- The relevant `useModel` hook state. -/
structure HookState where
  modelId : Option ℕ
  nextId : ℕ
  isTraining : Bool
  isPaused : Bool
  dataLoaded : Bool
  trainingHistory : TrainingHistory
  modelSource : Option ModelSource
  modelName : Option String
  trainedEpochs : ℕ
  lastValAccuracy : Option ℚ
  deriving Repr, DecidableEq

/-- `initModel` (`useModel.ts` lines 52–63): unconditionally creates a
fresh model, installs it, clears the history and resets the metadata.
There is no check of `isTraining` and no error path. -/
def initModel (s : HookState) : HookState :=
  { s with
    modelId := some s.nextId
    nextId := s.nextId + 1
    trainingHistory := TrainingHistory.empty
    modelSource := some .new
    modelName := none
    trainedEpochs := 0
    lastValAccuracy := none }

/-- The success path of `loadModel` (`useModel.ts` lines 256–275):
unconditionally installs the model loaded from the chosen files, resets
the metadata and clears the history; `name` is the JSON file's base name.
There is no check of `isTraining` and no `Busy` error. -/
def loadModelOp (s : HookState) (name : String) : HookState :=
  { s with
    modelId := some s.nextId
    nextId := s.nextId + 1
    trainingHistory := TrainingHistory.empty
    modelSource := some .loaded
    modelName := some name
    trainedEpochs := 0
    lastValAccuracy := none }

/-- The success path of `loadPretrained` (`useModel.ts` lines 278–297):
like `loadModelOp` with the fixed pretrained-model name. -/
def loadPretrainedOp (s : HookState) : HookState :=
  { s with
    modelId := some s.nextId
    nextId := s.nextId + 1
    trainingHistory := TrainingHistory.empty
    modelSource := some .pretrained
    modelName := some "Pre-trained MNIST CNN"
    trainedEpochs := 0
    lastValAccuracy := none }

/-- A whole `train()` call at the hook level.  If no model or no data is
present the function returns early with the state untouched
(`some (s, none)`).  Otherwise it runs the loop; on termination it
publishes: `trainingHistory` was last set inside the epoch-completion
block, so it is the run-local history if at least one epoch completed and
is untouched otherwise; likewise `lastValAccuracy` is the last completed
epoch's validation accuracy; `trainedEpochs` grows by the run's
`completedEpochs`; `isTraining` and `isPaused` end up `false`.  A loop
that never terminates (pause never released, fuel exhausted) is `none`. -/
def runTrain (s : HookState) (env : TrainEnv)
    (fuel epochs numTrain batchSize : ℕ) :
    Option (HookState × Option RunResult) :=
  if s.modelId = none ∨ s.dataLoaded = false then some (s, none)
  else
    match trainRun env fuel epochs numTrain batchSize with
    | none => none
    | some r =>
      some
        ({ s with
           isTraining := false
           isPaused := false
           trainingHistory :=
             if 0 < r.completedEpochs then r.history else s.trainingHistory
           lastValAccuracy :=
             match r.history.valAccuracy.getLast? with
             | some v => some v
             | none => s.lastValAccuracy
           trainedEpochs := s.trainedEpochs + r.completedEpochs },
         some r)

/-! ## Concrete instances used to exercise the theorems. -/

/-- All four history series have the same length. -/
def histBalanced (hst : TrainingHistory) : Prop :=
  hst.loss.length = hst.accuracy.length
  ∧ hst.loss.length = hst.valLoss.length
  ∧ hst.loss.length = hst.valAccuracy.length

instance (hst : TrainingHistory) : Decidable (histBalanced hst) := by
  unfold histBalanced
  infer_instance

/-- A run environment whose stop flag is raised at tick 13: with 3
training examples and batch size 2 this lands inside the third epoch. -/
def envC1 : TrainEnv :=
  ⟨fun t => decide (13 ≤ t), fun _ => false, fun n => (n : ℚ) / 10,
   fun n => (n : ℚ) / 100, fun n => (n : ℚ), fun _ => 1 / 2⟩

/-- The run of `envC1` (5 requested epochs, 3 examples, batch size 2):
stopped while epoch 3 was in progress, two epochs completed. -/
def rC1 : RunResult :=
  ⟨⟨[1 / 20, 1 / 4], [1 / 200, 1 / 40], [2, 4], [1 / 2, 1 / 2]⟩, 2,
   [⟨0, 0, 0⟩, ⟨0, 1, 2⟩, ⟨1, 0, 6⟩, ⟨1, 1, 8⟩, ⟨2, 0, 12⟩], 2, some 3, 14, 5⟩

/-- A run environment that holds the pause flag during ticks 2–4. -/
def envC2 : TrainEnv :=
  ⟨fun _ => false, fun t => decide (2 ≤ t ∧ t < 5), fun _ => 1, fun _ => 1,
   fun _ => 0, fun _ => 0⟩

/-- The run of `envC2` (2 epochs, 3 examples, batch size 2, wait fuel 10):
the second batch of epoch 1 is delayed from tick 2 to tick 5 by the pause. -/
def rC2 : RunResult :=
  ⟨⟨[1, 1], [1, 1], [0, 0], [0, 0]⟩, 2,
   [⟨0, 0, 0⟩, ⟨0, 1, 5⟩, ⟨1, 0, 9⟩, ⟨1, 1, 11⟩], 2, none, 15, 4⟩

/-- A quiet environment with per-call loss `n`. -/
def envC7 : TrainEnv :=
  ⟨fun _ => false, fun _ => false, fun n => (n : ℚ), fun n => (n : ℚ) / 2,
   fun _ => 0, fun _ => 1⟩

/-- The run of `envC7` (2 epochs, 3 examples, batch size 2). -/
def rC7 : RunResult :=
  ⟨⟨[1 / 2, 5 / 2], [1 / 4, 5 / 4], [0, 0], [1, 1]⟩, 2,
   [⟨0, 0, 0⟩, ⟨0, 1, 2⟩, ⟨1, 0, 6⟩, ⟨1, 1, 8⟩], 2, none, 12, 4⟩

/-- A 1×2×1 activation with values 0 and 1. -/
def actW : ℕ → ℕ → ℕ → ℚ :=
  fun _ x _ => (x : ℚ)

/-- An activation whose value at filter `f` is `f`. -/
def actC5 : ℕ → ℕ → ℕ → ℚ :=
  fun _ _ f => (f : ℚ)

/-- A layer stack whose last convolutional layer sits at index 2. -/
def layersC5 : List LayerKind :=
  [.conv2d, .maxPooling2d, .conv2d, .flattenL, .dense]

/-- A hook state in the middle of a training run. -/
def busyState : HookState :=
  ⟨some 0, 1, true, false, true, TrainingHistory.empty, some .new, none, 0, none⟩

/-- A quiet environment for whole-run evaluation. -/
def envSmooth : TrainEnv :=
  ⟨fun _ => false, fun _ => false, fun _ => 0, fun _ => 1, fun _ => 0,
   fun _ => 1⟩

/-- A hook state with data loaded and no model yet. -/
def baseState : HookState :=
  ⟨none, 0, false, false, true, TrainingHistory.empty, none, none, 0, none⟩

/-- One complete 1-epoch training run (3 examples, batch size 2) against
`envSmooth`, at the hook level. -/
def runOnce (s : HookState) : HookState :=
  ((runTrain s envSmooth 1 1 3 2).map Prod.fst).getD s

/-- The run result of one 1-epoch `envSmooth` run (3 examples, batch
size 2). -/
def c9Run : RunResult :=
  ⟨⟨[0], [1], [0], [1]⟩, 1, [⟨0, 0, 0⟩, ⟨0, 1, 2⟩], 1, none, 6, 2⟩

/-- The hook state after one such run from `initModel baseState`. -/
def c9State1 : HookState :=
  ⟨some 0, 1, false, false, true, ⟨[0], [1], [0], [1]⟩, some .new, none, 1,
   some 1⟩

/-- The hook state after a second identical run. -/
def c9State2 : HookState :=
  ⟨some 0, 1, false, false, true, ⟨[0], [1], [0], [1]⟩, some .new, none, 2,
   some 1⟩

/-! ## Lemmas about the pause wait and the batch loop. -/

theorem pauseWait_exit (env : TrainEnv) :
    ∀ fuel t t1, pauseWait env fuel t = some t1 →
      (env.pauseFlag t1 && !env.stopFlag t1) = false := by
  intro fuel
  induction fuel with
  | zero =>
    intro t t1 h
    simp only [pauseWait] at h
    split at h
    · exact absurd h (by simp)
    · next hc =>
      obtain rfl : t = t1 := by simpa using h
      simpa using hc
  | succ n ih =>
    intro t t1 h
    simp only [pauseWait] at h
    split at h
    · exact ih _ _ h
    · next hc =>
      obtain rfl : t = t1 := by simpa using h
      simpa using hc

theorem batchLoop_trace_len (env : TrainEnv) (fuel epoch : ℕ) :
    ∀ m b t calls eLoss eAcc bCount tr res,
      batchLoop env fuel epoch m b t calls eLoss eAcc bCount tr = some res →
      res.trace.length + calls = res.calls + tr.length := by
  intro m
  induction m with
  | zero =>
    intro b t calls eLoss eAcc bCount tr res h
    simp only [batchLoop] at h
    obtain rfl : (⟨t, calls, eLoss, eAcc, bCount, tr, false⟩ : EpochBatchResult) = res := by
      simpa using h
    simp [Nat.add_comm]
  | succ n ih =>
    intro b t calls eLoss eAcc bCount tr res h
    simp only [batchLoop] at h
    split at h
    · obtain rfl : (⟨t, calls, eLoss, eAcc, bCount, tr, true⟩ : EpochBatchResult) = res := by
        simpa using h
      simp [Nat.add_comm]
    · cases hw : pauseWait env fuel t with
      | none => rw [hw] at h; exact absurd h (by simp)
      | some t1 =>
        rw [hw] at h
        simp only at h
        split at h
        · obtain rfl : (⟨t1, calls, eLoss, eAcc, bCount, tr, true⟩ : EpochBatchResult) = res := by
            simpa using h
          simp [Nat.add_comm]
        · have := ih _ _ _ _ _ _ _ _ h
          simp only [List.length_append, List.length_cons, List.length_nil] at this ⊢
          omega

theorem batchLoop_trace_flags (env : TrainEnv) (fuel epoch : ℕ) :
    ∀ m b t calls eLoss eAcc bCount tr res,
      batchLoop env fuel epoch m b t calls eLoss eAcc bCount tr = some res →
      (∀ c ∈ tr, env.pauseFlag c.tick = false ∧ env.stopFlag c.tick = false) →
      ∀ c ∈ res.trace, env.pauseFlag c.tick = false ∧ env.stopFlag c.tick = false := by
  intro m
  induction m with
  | zero =>
    intro b t calls eLoss eAcc bCount tr res h htr
    simp only [batchLoop] at h
    obtain rfl : (⟨t, calls, eLoss, eAcc, bCount, tr, false⟩ : EpochBatchResult) = res := by
      simpa using h
    exact htr
  | succ n ih =>
    intro b t calls eLoss eAcc bCount tr res h htr
    simp only [batchLoop] at h
    split at h
    · obtain rfl : (⟨t, calls, eLoss, eAcc, bCount, tr, true⟩ : EpochBatchResult) = res := by
        simpa using h
      exact htr
    · cases hw : pauseWait env fuel t with
      | none => rw [hw] at h; exact absurd h (by simp)
      | some t1 =>
        rw [hw] at h
        simp only at h
        split at h
        · next hs1 =>
          obtain rfl : (⟨t1, calls, eLoss, eAcc, bCount, tr, true⟩ : EpochBatchResult) = res := by
            simpa using h
          exact htr
        · next hs1 =>
          refine ih _ _ _ _ _ _ _ _ h ?_
          intro c hc
          rcases List.mem_append.mp hc with hc | hc
          · exact htr c hc
          · have hstop : env.stopFlag t1 = false := by
              revert hs1
              cases env.stopFlag t1 <;> simp
            have hpw := pauseWait_exit env fuel t t1 hw
            rw [hstop] at hpw
            simp only [List.mem_singleton] at hc
            subst hc
            exact ⟨by simpa using hpw, hstop⟩

theorem batchLoop_complete (env : TrainEnv) (fuel epoch : ℕ) :
    ∀ m b t calls eLoss eAcc bCount tr res,
      batchLoop env fuel epoch m b t calls eLoss eAcc bCount tr = some res →
      res.stopped = false →
      res.calls = calls + m ∧ res.batchCount = bCount + m
      ∧ res.epochLoss = eLoss + ∑ j ∈ Finset.range m, env.batchLoss (calls + j)
      ∧ res.epochAcc = eAcc + ∑ j ∈ Finset.range m, env.batchAcc (calls + j) := by
  intro m
  induction m with
  | zero =>
    intro b t calls eLoss eAcc bCount tr res h _hst
    simp only [batchLoop] at h
    obtain rfl : (⟨t, calls, eLoss, eAcc, bCount, tr, false⟩ : EpochBatchResult) = res := by
      simpa using h
    simp
  | succ n ih =>
    intro b t calls eLoss eAcc bCount tr res h hst
    simp only [batchLoop] at h
    split at h
    · obtain rfl : (⟨t, calls, eLoss, eAcc, bCount, tr, true⟩ : EpochBatchResult) = res := by
        simpa using h
      simp at hst
    · cases hw : pauseWait env fuel t with
      | none => rw [hw] at h; exact absurd h (by simp)
      | some t1 =>
        rw [hw] at h
        simp only at h
        split at h
        · obtain rfl : (⟨t1, calls, eLoss, eAcc, bCount, tr, true⟩ : EpochBatchResult) = res := by
            simpa using h
          simp at hst
        · obtain ⟨h1, h2, h3, h4⟩ := ih _ _ _ _ _ _ _ _ h hst
          refine ⟨by omega, by omega, ?_, ?_⟩
          · rw [h3, Finset.sum_range_succ']
            have hcong :
                ∑ j ∈ Finset.range n, env.batchLoss (calls + 1 + j)
                  = ∑ j ∈ Finset.range n, env.batchLoss (calls + (j + 1)) :=
              Finset.sum_congr rfl fun j _ => congrArg env.batchLoss (by omega)
            rw [hcong, add_assoc, add_comm (env.batchLoss calls)]
            simp
          · rw [h4, Finset.sum_range_succ']
            have hcong :
                ∑ j ∈ Finset.range n, env.batchAcc (calls + 1 + j)
                  = ∑ j ∈ Finset.range n, env.batchAcc (calls + (j + 1)) :=
              Finset.sum_congr rfl fun j _ => congrArg env.batchAcc (by omega)
            rw [hcong, add_assoc, add_comm (env.batchAcc calls)]
            simp

/-- Value appended at the end of a list, read back with `getD`. -/
theorem getD_append_len {α : Type} (l : List α) (a d : α) :
    (l ++ [a]).getD l.length d = a := by
  rw [List.getD_append_right l [a] d l.length le_rfl]
  simp

/-- Master invariant of the epoch loop: starting from a state that has
completed `ce` epochs (epoch index, call count, trace, validation count
and history all consistent with that), the result of the loop keeps the
four history series in lockstep with `completedEpochs`, evaluates
validation exactly once per completed epoch, records for epoch `i` the
mean of that epoch's per-batch metrics, is stopped exactly during epoch
`completedEpochs + 1`, runs all remaining epochs when never stopped, and
issues `trainOnBatch` calls only at ticks where neither flag is set. -/
theorem epochLoop_spec (env : TrainEnv) (fuel B : ℕ) :
    ∀ m e t calls hist ce vc tr r,
      epochLoop env fuel B m e t calls hist ce vc tr = some r →
      e = ce →
      calls = ce * B →
      vc = ce →
      tr.length = calls →
      (∀ c ∈ tr, env.pauseFlag c.tick = false ∧ env.stopFlag c.tick = false) →
      hist.loss.length = ce →
      hist.accuracy.length = ce →
      hist.valLoss.length = ce →
      hist.valAccuracy.length = ce →
      (∀ i, i < ce →
        hist.loss.getD i 0 = (∑ b ∈ Finset.range B, env.batchLoss (i * B + b)) / (B : ℚ)
        ∧ hist.accuracy.getD i 0
            = (∑ b ∈ Finset.range B, env.batchAcc (i * B + b)) / (B : ℚ)) →
      (r.history.loss.length = r.completedEpochs
       ∧ r.history.accuracy.length = r.completedEpochs
       ∧ r.history.valLoss.length = r.completedEpochs
       ∧ r.history.valAccuracy.length = r.completedEpochs)
      ∧ r.valCalls = r.completedEpochs
      ∧ (∀ k, r.stoppedDuringEpoch = some k → r.completedEpochs + 1 = k)
      ∧ (r.stoppedDuringEpoch = none → r.completedEpochs = ce + m)
      ∧ (∀ i, i < r.completedEpochs →
          r.history.loss.getD i 0
            = (∑ b ∈ Finset.range B, env.batchLoss (i * B + b)) / (B : ℚ)
          ∧ r.history.accuracy.getD i 0
            = (∑ b ∈ Finset.range B, env.batchAcc (i * B + b)) / (B : ℚ))
      ∧ (∀ c ∈ r.trace, env.pauseFlag c.tick = false ∧ env.stopFlag c.tick = false)
      ∧ r.trace.length = r.calls := by
  intro m
  induction m with
  | zero =>
    intro e t calls hist ce vc tr r h he hcalls hvc htrlen hflags hl ha hv hva hform
    simp only [epochLoop] at h
    obtain rfl : (⟨hist, ce, tr, vc, none, t, calls⟩ : RunResult) = r := by
      simpa using h
    refine ⟨⟨hl, ha, hv, hva⟩, hvc, ?_, ?_, hform, hflags, ?_⟩
    · intro k hk; exact absurd hk (by simp)
    · intro _; simp
    · simpa [hcalls] using htrlen
  | succ n ih =>
    intro e t calls hist ce vc tr r h he hcalls hvc htrlen hflags hl ha hv hva hform
    simp only [epochLoop] at h
    split at h
    · obtain rfl : (⟨hist, ce, tr, vc, some (e + 1), t, calls⟩ : RunResult) = r := by
        simpa using h
      refine ⟨⟨hl, ha, hv, hva⟩, hvc, ?_, ?_, hform, hflags, ?_⟩
      · intro k hk
        have hek : e + 1 = k := by simpa using hk
        show ce + 1 = k
        omega
      · intro hk; exact absurd hk (by simp)
      · simpa [hcalls] using htrlen
    · cases hw : pauseWait env fuel t with
      | none => rw [hw] at h; exact absurd h (by simp)
      | some t1 =>
        rw [hw] at h
        simp only at h
        split at h
        · obtain rfl : (⟨hist, ce, tr, vc, some (e + 1), t1, calls⟩ : RunResult) = r := by
            simpa using h
          refine ⟨⟨hl, ha, hv, hva⟩, hvc, ?_, ?_, hform, hflags, ?_⟩
          · intro k hk
            have hek : e + 1 = k := by simpa using hk
            show ce + 1 = k
            omega
          · intro hk; exact absurd hk (by simp)
          · simpa [hcalls] using htrlen
        · cases hb : batchLoop env fuel e B 0 t1 calls 0 0 0 tr with
          | none => rw [hb] at h; exact absurd h (by simp)
          | some br =>
            rw [hb] at h
            simp only at h
            have hbtl := batchLoop_trace_len env fuel e B 0 t1 calls 0 0 0 tr br hb
            have hbfl := batchLoop_trace_flags env fuel e B 0 t1 calls 0 0 0 tr br hb hflags
            split at h
            · obtain rfl :
                  (⟨hist, ce, br.trace, vc, some (e + 1), br.tick, br.calls⟩ : RunResult) = r := by
                simpa using h
              refine ⟨⟨hl, ha, hv, hva⟩, hvc, ?_, ?_, hform, hbfl, ?_⟩
              · intro k hk
                have hek : e + 1 = k := by simpa using hk
                show ce + 1 = k
                omega
              · intro hk; exact absurd hk (by simp)
              · show br.trace.length = br.calls
                omega
            · split at h
              · obtain rfl :
                    (⟨hist, ce, br.trace, vc, some (e + 1), br.tick, br.calls⟩ : RunResult) = r := by
                  simpa using h
                refine ⟨⟨hl, ha, hv, hva⟩, hvc, ?_, ?_, hform, hbfl, ?_⟩
                · intro k hk
                  have hek : e + 1 = k := by simpa using hk
                  show ce + 1 = k
                  omega
                · intro hk; exact absurd hk (by simp)
                · show br.trace.length = br.calls
                  omega
              · next hnst _ =>
                have hcomp := batchLoop_complete env fuel e B 0 t1 calls 0 0 0 tr br hb
                  (by revert hnst; cases br.stopped <;> simp)
                obtain ⟨hbc, hbn, hbl, hba⟩ := hcomp
                have hrec := ih (e + 1) (br.tick + 3) br.calls _ (ce + 1) (vc + 1) br.trace r h
                  (by omega)
                  (by rw [hbc, hcalls]; ring)
                  (by omega)
                  (by omega)
                  hbfl
                  (by simp [hl])
                  (by simp [ha])
                  (by simp [hv])
                  (by simp [hva])
                  ?_
                · obtain ⟨g1, g2, g3, g4, g5, g6, g7⟩ := hrec
                  exact ⟨g1, g2, g3, by intro hk; rw [g4 hk]; omega, g5, g6, g7⟩
                · intro i hi
                  rcases Nat.lt_or_ge i ce with hic | hic
                  · constructor
                    · rw [List.getD_append _ _ _ _ (by omega)]
                      exact (hform i hic).1
                    · rw [List.getD_append _ _ _ _ (by omega)]
                      exact (hform i hic).2
                  · have hie : i = ce := by omega
                    subst hie
                    constructor
                    · have hgd :=
                        getD_append_len hist.loss (br.epochLoss / (br.batchCount : ℚ)) 0
                      rw [hl] at hgd
                      rw [hgd, hbl, hbn, hcalls]
                      simp
                    · have hgd :=
                        getD_append_len hist.accuracy (br.epochAcc / (br.batchCount : ℚ)) 0
                      rw [ha] at hgd
                      rw [hgd, hba, hbn, hcalls]
                      simp

/-- `epochLoop_spec` instantiated at the start state of a `train()` run. -/
theorem trainRun_spec (env : TrainEnv) (fuel epochs numTrain batchSize : ℕ)
    (r : RunResult) (h : trainRun env fuel epochs numTrain batchSize = some r) :
    (r.history.loss.length = r.completedEpochs
     ∧ r.history.accuracy.length = r.completedEpochs
     ∧ r.history.valLoss.length = r.completedEpochs
     ∧ r.history.valAccuracy.length = r.completedEpochs)
    ∧ r.valCalls = r.completedEpochs
    ∧ (∀ k, r.stoppedDuringEpoch = some k → r.completedEpochs + 1 = k)
    ∧ (r.stoppedDuringEpoch = none → r.completedEpochs = epochs)
    ∧ (∀ i, i < r.completedEpochs →
        r.history.loss.getD i 0
          = (∑ b ∈ Finset.range (numBatches numTrain batchSize),
              env.batchLoss (i * numBatches numTrain batchSize + b))
            / (numBatches numTrain batchSize : ℚ)
        ∧ r.history.accuracy.getD i 0
          = (∑ b ∈ Finset.range (numBatches numTrain batchSize),
              env.batchAcc (i * numBatches numTrain batchSize + b))
            / (numBatches numTrain batchSize : ℚ))
    ∧ (∀ c ∈ r.trace, env.pauseFlag c.tick = false ∧ env.stopFlag c.tick = false)
    ∧ r.trace.length = r.calls := by
  have := epochLoop_spec env fuel (numBatches numTrain batchSize) epochs 0 0 0
    TrainingHistory.empty 0 0 [] r h rfl (by simp) rfl rfl (by simp)
    rfl rfl rfl rfl (by intro i hi; exact absurd hi (by simp))
  simpa using this

/-! ## Claim theorems. -/

/-- C1.  For a run of `epochs` requested epochs: the metrics history
always holds exactly one record per fully completed epoch; if the loop
exited because stop was observed while (1-based) epoch `k` was in
progress, then exactly `k - 1` epochs completed, the history has exactly
`k - 1` records and validation was evaluated only `k - 1` times (never
for epoch `k`); if the run was never stopped, all `epochs` epochs
completed; and at the hook level the cumulative `trainedEpochs` counter
grows by exactly the number of completed epochs of the run. -/
theorem stop_epoch_accounting (env : TrainEnv)
    (fuel epochs numTrain batchSize : ℕ) (r : RunResult)
    (h : trainRun env fuel epochs numTrain batchSize = some r) :
    r.history.loss.length = r.completedEpochs
    ∧ r.history.valAccuracy.length = r.completedEpochs
    ∧ (∀ k, r.stoppedDuringEpoch = some k →
        r.completedEpochs = k - 1 ∧ r.history.loss.length = k - 1
        ∧ r.valCalls = k - 1)
    ∧ (r.stoppedDuringEpoch = none → r.completedEpochs = epochs)
    ∧ (∀ s s' : HookState,
        runTrain s env fuel epochs numTrain batchSize = some (s', some r) →
        s'.trainedEpochs = s.trainedEpochs + r.completedEpochs) := by
  obtain ⟨⟨hl, _, _, hva⟩, hvc, hstop, hnone, _, _, _⟩ :=
    trainRun_spec env fuel epochs numTrain batchSize r h
  refine ⟨hl, hva, ?_, hnone, ?_⟩
  · intro k hk
    have := hstop k hk
    refine ⟨by omega, by omega, by omega⟩
  · intro s s' hs
    unfold runTrain at hs
    split at hs
    · simp at hs
    · rw [h] at hs
      simp only [Option.some.injEq, Prod.mk.injEq] at hs
      obtain ⟨hs1, _⟩ := hs
      rw [← hs1]

/-- C1 witness: the concrete run `rC1` of `envC1` (stop requested during
epoch 3 of 5): exactly 2 completed epochs, 2 history records, 2
validation evaluations. -/
theorem stop_epoch_accounting_witness :
    rC1.completedEpochs = 2 ∧ rC1.history.loss.length = 2 ∧ rC1.valCalls = 2 := by
  have H := stop_epoch_accounting envC1 1 5 3 2 rC1
    (by norm_num [trainRun, epochLoop, batchLoop, pauseWait, envC1, rC1,
          numBatches, TrainingHistory.empty])
  obtain ⟨-, -, hstop, -, -⟩ := H
  obtain ⟨h1, h2, h3⟩ := hstop 3 rfl
  exact ⟨h1, h2, h3⟩

/-- C2.  Every `trainOnBatch` call of a run is issued in a synchronous
region (tick) where the pause flag is unset and the stop flag is unset:
no batch executes, and hence the batch index never advances, while the
loop is pausing or stopping.  Moreover every call that starts is
completed and accumulated: the trace length equals the final
`trainOnBatch` call count. -/
theorem pause_no_batches (env : TrainEnv)
    (fuel epochs numTrain batchSize : ℕ) (r : RunResult)
    (h : trainRun env fuel epochs numTrain batchSize = some r) :
    (∀ c ∈ r.trace, env.pauseFlag c.tick = false ∧ env.stopFlag c.tick = false)
    ∧ r.trace.length = r.calls := by
  obtain ⟨_, _, _, _, _, hfl, htl⟩ :=
    trainRun_spec env fuel epochs numTrain batchSize r h
  exact ⟨hfl, htl⟩

/-- C2 witness: the concrete run `rC2` of `envC2` (paused over ticks
2–4): its delayed second batch ran at tick 5, where both flags are down. -/
theorem pause_no_batches_witness :
    (envC2.pauseFlag 5 = false ∧ envC2.stopFlag 5 = false)
    ∧ rC2.trace.length = rC2.calls := by
  have H := pause_no_batches envC2 10 2 3 2 rC2
    (by norm_num [trainRun, epochLoop, batchLoop, pauseWait, envC2, rC2,
          numBatches, TrainingHistory.empty])
  exact ⟨H.1 ⟨0, 1, 5⟩ (by norm_num [rC2]), H.2⟩

/-- C7.  For every fully completed epoch `i` (0-based) of a run, the
recorded training loss and accuracy are the unweighted arithmetic means
of the per-batch values of that epoch: the sum of the
`numBatches numTrain batchSize` per-batch oracle values divided by the
batch count, regardless of the size of the final batch. -/
theorem epoch_mean_metrics (env : TrainEnv)
    (fuel epochs numTrain batchSize : ℕ) (r : RunResult) (i : ℕ)
    (h : trainRun env fuel epochs numTrain batchSize = some r)
    (hi : i < r.completedEpochs) :
    r.history.loss.getD i 0
      = (∑ b ∈ Finset.range (numBatches numTrain batchSize),
          env.batchLoss (i * numBatches numTrain batchSize + b))
        / (numBatches numTrain batchSize : ℚ)
    ∧ r.history.accuracy.getD i 0
      = (∑ b ∈ Finset.range (numBatches numTrain batchSize),
          env.batchAcc (i * numBatches numTrain batchSize + b))
        / (numBatches numTrain batchSize : ℚ) := by
  obtain ⟨_, _, _, _, hform, _, _⟩ :=
    trainRun_spec env fuel epochs numTrain batchSize r h
  exact hform i hi

/-- C7 witness: epoch 1 of the concrete run `rC7` (per-batch losses
`2, 3`, two batches of unequal size: 2 and 1 examples): recorded loss is
`(2 + 3) / 2 = 5/2`, the unweighted mean. -/
theorem epoch_mean_metrics_witness :
    rC7.history.loss.getD 1 0
      = (∑ b ∈ Finset.range (numBatches 3 2), envC7.batchLoss (1 * numBatches 3 2 + b))
        / (numBatches 3 2 : ℚ)
    ∧ rC7.history.accuracy.getD 1 0
      = (∑ b ∈ Finset.range (numBatches 3 2), envC7.batchAcc (1 * numBatches 3 2 + b))
        / (numBatches 3 2 : ℚ) :=
  epoch_mean_metrics envC7 1 2 3 2 rC7 1
    (by norm_num [trainRun, epochLoop, batchLoop, pauseWait, envC7, rC7,
          numBatches, TrainingHistory.empty])
    (by norm_num [rC7])

/-- C3.  `numBatches` is exactly the ceiling `⌈numTrain / batchSize⌉`;
the batch at index `i` starts at `(i * batchSize) mod numTrain` and has
`min batchSize (numTrain - startIndex)` rows; in particular 500 examples
at batch size 32 give 16 batches whose last batch (index 15) has exactly
20 examples. -/
theorem batch_slicing (numTrain batchSize i : ℕ)
    (hn : 0 < numTrain) (hbs : 0 < batchSize) :
    (numBatches numTrain batchSize : ℤ) = ⌈(numTrain : ℚ) / (batchSize : ℚ)⌉
    ∧ (getBatch numTrain batchSize i).startIndex = (i * batchSize) % numTrain
    ∧ (getBatch numTrain batchSize i).imagesRows
        = min batchSize (numTrain - (i * batchSize) % numTrain)
    ∧ numBatches 500 32 = 16
    ∧ (getBatch 500 32 15).imagesRows = 20 := by
  have hbsQ : (0 : ℚ) < (batchSize : ℚ) := by exact_mod_cast hbs
  have hmod : (i * batchSize) % numTrain < numTrain := Nat.mod_lt _ (by omega)
  refine ⟨?_, rfl, ?_, by norm_num [numBatches], by norm_num [getBatch]⟩
  · have hq2 : numBatches numTrain batchSize
        = (numTrain + batchSize - 1) / batchSize := rfl
    have hkey := Nat.div_add_mod (numTrain + batchSize - 1) batchSize
    have hm2 := Nat.mod_lt (numTrain + batchSize - 1) hbs
    obtain ⟨p, hp⟩ : ∃ p, batchSize * ((numTrain + batchSize - 1) / batchSize) = p :=
      ⟨_, rfl⟩
    have hub : numTrain ≤ p := by omega
    have hlb : p < numTrain + batchSize := by omega
    symm
    rw [Int.ceil_eq_iff]
    constructor
    · rw [lt_div_iff₀ hbsQ]
      have hlbQ : (p : ℚ) < (numTrain : ℚ) + (batchSize : ℚ) := by exact_mod_cast hlb
      have hpQ : (batchSize : ℚ) * (numBatches numTrain batchSize : ℚ) = (p : ℚ) := by
        rw [hq2]; exact_mod_cast hp
      push_cast
      nlinarith [hpQ, hlbQ]
    · rw [div_le_iff₀ hbsQ]
      have hubQ : (numTrain : ℚ) ≤ (p : ℚ) := by exact_mod_cast hub
      have hpQ : (batchSize : ℚ) * (numBatches numTrain batchSize : ℚ) = (p : ℚ) := by
        rw [hq2]; exact_mod_cast hp
      push_cast
      nlinarith [hpQ, hubQ]
  · simp only [getBatch, min_def]
    split_ifs <;> omega

/-- C3 witness: the theorem itself applied at 500 training examples,
batch size 32, batch index 15. -/
theorem batch_slicing_witness :
    numBatches 500 32 = 16 ∧ (getBatch 500 32 15).imagesRows = 20 := by
  have H := batch_slicing 500 32 15 (by norm_num) (by norm_num)
  exact ⟨H.2.2.2.1, H.2.2.2.2⟩

/-- C10.  For every batch index, positive batch size and non-empty
dataset, the slice bounds of `getBatch` are in range, the batch is never
empty, it has at most `batchSize` rows, and the image slice and the
label slice request the same number of rows. -/
theorem batch_slice_safety (numTrain batchSize i : ℕ)
    (hn : 1 ≤ numTrain) (hbs : 1 ≤ batchSize) :
    (getBatch numTrain batchSize i).startIndex < numTrain
    ∧ (getBatch numTrain batchSize i).startIndex
        < (getBatch numTrain batchSize i).endIndex
    ∧ (getBatch numTrain batchSize i).endIndex ≤ numTrain
    ∧ 0 < (getBatch numTrain batchSize i).imagesRows
    ∧ (getBatch numTrain batchSize i).imagesRows ≤ batchSize
    ∧ (getBatch numTrain batchSize i).imagesRows
        = (getBatch numTrain batchSize i).labelsRows := by
  have hmod : (i * batchSize) % numTrain < numTrain := Nat.mod_lt _ (by omega)
  simp only [getBatch, min_def, and_true]
  split_ifs <;> omega

/-- C10 witness: the theorem itself at 3 examples, batch size 2, batch
index 5 (a wrapped-around index). -/
theorem batch_slice_safety_witness :
    (getBatch 3 2 5).startIndex < 3
    ∧ (getBatch 3 2 5).startIndex < (getBatch 3 2 5).endIndex
    ∧ (getBatch 3 2 5).endIndex ≤ 3
    ∧ 0 < (getBatch 3 2 5).imagesRows
    ∧ (getBatch 3 2 5).imagesRows ≤ 2
    ∧ (getBatch 3 2 5).imagesRows = (getBatch 3 2 5).labelsRows :=
  batch_slice_safety 3 2 5 (by norm_num) (by norm_num)

/-- C8 counterexample: with a training run active (`isTraining = true`),
`initModel` and `loadModel` still replace the active model handle — no
`Busy` rejection exists in `useModel.ts` and the handle does not stay
unchanged. -/
theorem model_swap_while_running_cex :
    busyState.isTraining = true
    ∧ (initModel busyState).modelId = some 1
    ∧ (initModel busyState).modelId ≠ busyState.modelId
    ∧ (loadModelOp busyState "mnist-cnn").modelId = some 1
    ∧ (loadModelOp busyState "mnist-cnn").modelId ≠ busyState.modelId := by
  refine ⟨rfl, rfl, ?_, rfl, ?_⟩ <;> decide

/-- C8 amended: model-replacing commands are not guarded by the run
state: issued while `isTraining = true` they proceed unconditionally,
installing the fresh handle and resetting the metadata, and they do not
stop the run either (`isTraining` stays `true`). -/
theorem model_swap_unguarded (s : HookState) (hrun : s.isTraining = true)
    (nm : String) :
    (initModel s).modelId = some s.nextId
    ∧ (initModel s).isTraining = true
    ∧ (initModel s).trainedEpochs = 0
    ∧ (loadModelOp s nm).modelId = some s.nextId
    ∧ (loadModelOp s nm).isTraining = true
    ∧ (loadPretrainedOp s).modelId = some s.nextId := by
  simp [initModel, loadModelOp, loadPretrainedOp, hrun]

/-- C8 witness: the amended theorem at the concrete busy state. -/
theorem model_swap_unguarded_witness :
    (initModel busyState).modelId = some 1
    ∧ (initModel busyState).isTraining = true
    ∧ (initModel busyState).trainedEpochs = 0
    ∧ (loadModelOp busyState "m").modelId = some 1
    ∧ (loadModelOp busyState "m").isTraining = true
    ∧ (loadPretrainedOp busyState).modelId = some 1 :=
  model_swap_unguarded busyState rfl "m"

/-- C9 counterexample: two consecutive completed 1-epoch runs against
the same model identity leave `trainedEpochs = 2` (two epochs completed
against the current model) while the published history holds only the
last run's single record — the common length does not equal the number
of epochs completed against the current model identity. -/
theorem history_reset_cex :
    (runOnce (runOnce (initModel baseState))).trainedEpochs = 2
    ∧ (runOnce (runOnce (initModel baseState))).trainingHistory.loss.length = 1
    ∧ (runOnce (runOnce (initModel baseState))).modelId
        = (initModel baseState).modelId
    ∧ ((runTrain (initModel baseState) envSmooth 1 1 3 2).map
        (fun p => p.2.map RunResult.completedEpochs)) = some (some 1)
    ∧ ¬((runOnce (runOnce (initModel baseState))).trainingHistory.loss.length
        = (runOnce (runOnce (initModel baseState))).trainedEpochs) := by
  have h1 : runTrain (initModel baseState) envSmooth 1 1 3 2
      = some (c9State1, some c9Run) := by
    norm_num [runTrain, trainRun, epochLoop, batchLoop, pauseWait, envSmooth,
      baseState, initModel, numBatches, TrainingHistory.empty, c9State1, c9Run,
      Option.some_ne_none]
  have h2 : runTrain c9State1 envSmooth 1 1 3 2
      = some (c9State2, some c9Run) := by
    norm_num [runTrain, trainRun, epochLoop, batchLoop, pauseWait, envSmooth,
      c9State1, c9State2, numBatches, TrainingHistory.empty, c9Run,
      Option.some_ne_none]
  have e1 : runOnce (initModel baseState) = c9State1 := by
    unfold runOnce
    rw [h1]
    rfl
  have e2 : runOnce c9State1 = c9State2 := by
    unfold runOnce
    rw [h2]
    rfl
  rw [e1, e2, h1]
  refine ⟨rfl, rfl, rfl, rfl, by decide⟩

/-- C9 amended: the four history series always keep equal lengths, and
they are cleared on model creation/load; but after a training run the
published length equals the number of epochs completed in *that run
alone* when at least one epoch completed (the run-local history replaces
the published one, it is not appended), and the history is untouched by
a run that completed no epoch, while `trainedEpochs` separately
accumulates across runs. -/
theorem history_lengths_spec (s : HookState)
    (hbal : histBalanced s.trainingHistory) :
    (histBalanced (initModel s).trainingHistory
      ∧ (initModel s).trainingHistory.loss.length = 0
      ∧ (initModel s).trainedEpochs = 0)
    ∧ (∀ nm, histBalanced (loadModelOp s nm).trainingHistory
      ∧ (loadModelOp s nm).trainingHistory.loss.length = 0
      ∧ (loadModelOp s nm).trainedEpochs = 0)
    ∧ (histBalanced (loadPretrainedOp s).trainingHistory
      ∧ (loadPretrainedOp s).trainingHistory.loss.length = 0
      ∧ (loadPretrainedOp s).trainedEpochs = 0)
    ∧ (∀ env fuel epochs numTrain batchSize s' res,
        runTrain s env fuel epochs numTrain batchSize = some (s', res) →
        histBalanced s'.trainingHistory
        ∧ (∀ r, res = some r →
            s'.trainedEpochs = s.trainedEpochs + r.completedEpochs
            ∧ s'.trainingHistory.loss.length
              = (if 0 < r.completedEpochs then r.completedEpochs
                 else s.trainingHistory.loss.length))
        ∧ (res = none → s' = s)) := by
  refine ⟨?_, ?_, ?_, ?_⟩
  · exact ⟨⟨rfl, rfl, rfl⟩, rfl, rfl⟩
  · intro nm; exact ⟨⟨rfl, rfl, rfl⟩, rfl, rfl⟩
  · exact ⟨⟨rfl, rfl, rfl⟩, rfl, rfl⟩
  · intro env fuel epochs numTrain batchSize s' res h
    unfold runTrain at h
    split at h
    · obtain ⟨rfl, rfl⟩ : s = s' ∧ (none : Option RunResult) = res := by
        simpa using h
      refine ⟨hbal, ?_, fun _ => rfl⟩
      intro r hr; exact absurd hr (by simp)
    · cases htr : trainRun env fuel epochs numTrain batchSize with
      | none => rw [htr] at h; exact absurd h (by simp)
      | some r0 =>
        rw [htr] at h
        obtain ⟨hs', hres⟩ : _ ∧ (some r0 : Option RunResult) = res := by
          simpa using h
        obtain ⟨⟨hl0, ha0, hv0, hva0⟩, -, -, -, -, -, -⟩ :=
          trainRun_spec env fuel epochs numTrain batchSize r0 htr
        refine ⟨?_, ?_, ?_⟩
        · rw [← hs']
          by_cases hce : 0 < r0.completedEpochs
          · simp only [hce, if_pos]
            exact ⟨by rw [hl0, ha0], by rw [hl0, hv0], by rw [hl0, hva0]⟩
          · simp only [hce, if_neg, not_false_iff]
            exact hbal
        · intro r hr
          have hrr : r0 = r := by rw [← hres] at hr; simpa using hr
          subst hrr
          rw [← hs']
          refine ⟨rfl, ?_⟩
          by_cases hce : 0 < r0.completedEpochs
          · simp only [hce, if_pos]
            exact hl0
          · simp only [hce, if_neg, not_false_iff]
        · intro hr; rw [← hres] at hr; exact absurd hr (by simp)

/-- C9 witness: the amended theorem at the concrete fresh state. -/
theorem history_lengths_spec_witness :
    histBalanced (initModel baseState).trainingHistory
    ∧ (initModel baseState).trainingHistory.loss.length = 0
    ∧ (initModel baseState).trainedEpochs = 0 :=
  (history_lengths_spec baseState (by decide)).1

/-! ## Lemmas about `listMax` / `listMin` / `flatCam`. -/

theorem le_foldl_max : ∀ (l : List ℚ) (v : ℚ), v ≤ l.foldl max v := by
  intro l
  induction l with
  | nil => intro v; simp
  | cons x xs ih =>
    intro v
    exact le_trans (le_max_left v x) (ih (max v x))

theorem mem_le_foldl_max : ∀ (l : List ℚ) (v a : ℚ), a ∈ l → a ≤ l.foldl max v := by
  intro l
  induction l with
  | nil => intro v a ha; simp at ha
  | cons x xs ih =>
    intro v a ha
    rcases List.mem_cons.mp ha with rfl | ha
    · exact le_trans (le_max_right v a) (le_foldl_max xs (max v a))
    · exact ih (max v x) a ha

theorem foldl_max_mem : ∀ (l : List ℚ) (v : ℚ), l.foldl max v = v ∨ l.foldl max v ∈ l := by
  intro l
  induction l with
  | nil => intro v; left; rfl
  | cons x xs ih =>
    intro v
    rcases ih (max v x) with hv | hv
    · rcases max_choice v x with hm | hm
      · left; rw [List.foldl_cons, hv, hm]
      · right; rw [List.foldl_cons, hv, hm]; exact List.mem_cons_self x xs
    · right; exact List.mem_cons_of_mem x hv

theorem listMax_ub {l : List ℚ} {a : ℚ} (ha : a ∈ l) : a ≤ listMax l := by
  cases l with
  | nil => simp at ha
  | cons v vs =>
    rcases List.mem_cons.mp ha with rfl | ha
    · exact le_foldl_max vs a
    · exact mem_le_foldl_max vs v a ha

theorem listMax_mem {l : List ℚ} (hl : l ≠ []) : listMax l ∈ l := by
  cases l with
  | nil => exact absurd rfl hl
  | cons v vs =>
    rcases foldl_max_mem vs v with hv | hv
    · rw [listMax, hv]; exact List.mem_cons_self v vs
    · exact List.mem_cons_of_mem v hv

theorem foldl_min_le : ∀ (l : List ℚ) (v : ℚ), l.foldl min v ≤ v := by
  intro l
  induction l with
  | nil => intro v; simp
  | cons x xs ih =>
    intro v
    exact le_trans (ih (min v x)) (min_le_left v x)

theorem foldl_min_le_mem : ∀ (l : List ℚ) (v a : ℚ), a ∈ l → l.foldl min v ≤ a := by
  intro l
  induction l with
  | nil => intro v a ha; simp at ha
  | cons x xs ih =>
    intro v a ha
    rcases List.mem_cons.mp ha with rfl | ha
    · exact le_trans (foldl_min_le xs (min v a)) (min_le_right v a)
    · exact ih (min v x) a ha

theorem foldl_min_mem : ∀ (l : List ℚ) (v : ℚ), l.foldl min v = v ∨ l.foldl min v ∈ l := by
  intro l
  induction l with
  | nil => intro v; left; rfl
  | cons x xs ih =>
    intro v
    rcases ih (min v x) with hv | hv
    · rcases min_choice v x with hm | hm
      · left; rw [List.foldl_cons, hv, hm]
      · right; rw [List.foldl_cons, hv, hm]; exact List.mem_cons_self x xs
    · right; exact List.mem_cons_of_mem x hv

theorem listMin_lb {l : List ℚ} {a : ℚ} (ha : a ∈ l) : listMin l ≤ a := by
  cases l with
  | nil => simp at ha
  | cons v vs =>
    rcases List.mem_cons.mp ha with rfl | ha
    · exact foldl_min_le vs a
    · exact foldl_min_le_mem vs v a ha

theorem listMin_mem {l : List ℚ} (hl : l ≠ []) : listMin l ∈ l := by
  cases l with
  | nil => exact absurd rfl hl
  | cons v vs =>
    rcases foldl_min_mem vs v with hv | hv
    · rw [listMin, hv]; exact List.mem_cons_self v vs
    · exact List.mem_cons_of_mem v hv

theorem mem_flatCam {h w : ℕ} {g : ℕ → ℕ → ℚ} {y x : ℕ}
    (hy : y < h) (hx : x < w) : g y x ∈ flatCam h w g := by
  unfold flatCam
  rw [List.mem_flatMap]
  exact ⟨y, List.mem_range.mpr hy, List.mem_map.mpr ⟨x, List.mem_range.mpr hx, rfl⟩⟩

theorem flatCam_mem_inv {h w : ℕ} {g : ℕ → ℕ → ℚ} {a : ℚ}
    (ha : a ∈ flatCam h w g) : ∃ y, y < h ∧ ∃ x, x < w ∧ g y x = a := by
  unfold flatCam at ha
  rw [List.mem_flatMap] at ha
  obtain ⟨y, hy, hmem⟩ := ha
  obtain ⟨x, hx, hgx⟩ := List.mem_map.mp hmem
  exact ⟨y, List.mem_range.mp hy, x, List.mem_range.mp hx, hgx⟩

theorem flatCam_ne_nil {h w : ℕ} {g : ℕ → ℕ → ℚ}
    (hh : 0 < h) (hw : 0 < w) : flatCam h w g ≠ [] := by
  intro hnil
  have := mem_flatCam (g := g) hh hw
  rw [hnil] at this
  simp at this

/-- C4.  For the CAM grid `camPre` of any H×W×F activation: if the grid
is non-degenerate (its minimum is strictly below its maximum), then
every normalized value lies in `[0, 1]`, some cell is exactly `0` and
some cell is exactly `1`; if instead every cell carries the same value,
the `|| 1` fallback makes the denominator `1` and every normalized value
is exactly `0`. -/
theorem cam_norm_bounds (h w nf : ℕ) (act : ℕ → ℕ → ℕ → ℚ)
    (hh : 0 < h) (hw : 0 < w) :
    (listMin (flatCam h w (camPre nf act)) < listMax (flatCam h w (camPre nf act)) →
      (∀ y, y < h → ∀ x, x < w →
        0 ≤ camNorm h w (camPre nf act) y x ∧ camNorm h w (camPre nf act) y x ≤ 1)
      ∧ (∃ y, y < h ∧ ∃ x, x < w ∧ camNorm h w (camPre nf act) y x = 0)
      ∧ (∃ y, y < h ∧ ∃ x, x < w ∧ camNorm h w (camPre nf act) y x = 1))
    ∧ ((∀ y, y < h → ∀ x, x < w → ∀ y2, y2 < h → ∀ x2, x2 < w →
          camPre nf act y x = camPre nf act y2 x2) →
        ∀ y, y < h → ∀ x, x < w → camNorm h w (camPre nf act) y x = 0) := by
  set g := camPre nf act with hg
  have hne : flatCam h w g ≠ [] := flatCam_ne_nil hh hw
  constructor
  · intro hlt
    have hrange : camRange h w g = listMax (flatCam h w g) - listMin (flatCam h w g) := by
      unfold camRange
      rw [if_neg (by linarith)]
    have hdpos : 0 < listMax (flatCam h w g) - listMin (flatCam h w g) := by linarith
    refine ⟨?_, ?_, ?_⟩
    · intro y hy x hx
      have hmem := mem_flatCam (g := g) hy hx
      have hub := listMax_ub hmem
      have hlb := listMin_lb hmem
      unfold camNorm
      rw [hrange]
      constructor
      · apply div_nonneg (by linarith) (by linarith)
      · rw [div_le_one hdpos]; linarith
    · obtain ⟨y, hy, x, hx, hgx⟩ := flatCam_mem_inv (listMin_mem hne)
      refine ⟨y, hy, x, hx, ?_⟩
      unfold camNorm
      rw [hrange, hgx, sub_self, zero_div]
    · obtain ⟨y, hy, x, hx, hgx⟩ := flatCam_mem_inv (listMax_mem hne)
      refine ⟨y, hy, x, hx, ?_⟩
      unfold camNorm
      rw [hrange, hgx, div_self (by linarith)]
  · intro hconst y hy x hx
    have hminmem := flatCam_mem_inv (listMin_mem hne)
    obtain ⟨ym, hym, xm, hxm, hgm⟩ := hminmem
    have hmaxmem := flatCam_mem_inv (listMax_mem hne)
    obtain ⟨yM, hyM, xM, hxM, hgM⟩ := hmaxmem
    have heq : listMax (flatCam h w g) = listMin (flatCam h w g) := by
      rw [← hgm, ← hgM]
      exact hconst yM hyM xM hxM ym hym xm hxm
    have hrange : camRange h w g = 1 := by
      unfold camRange
      rw [if_pos (by rw [heq]; ring)]
    have hgx : g y x = listMin (flatCam h w g) := by
      rw [← hgm]
      exact hconst y hy x hx ym hym xm hxm
    unfold camNorm
    rw [hrange, hgx, sub_self, div_one]

/-- C4 witness: the 1×2 grid with activation values 0 and 1 (one
filter): normalized values are 0 at (0,0) and 1 at (0,1), in `[0,1]`. -/
theorem cam_norm_bounds_witness :
    (0 ≤ camNorm 1 2 (camPre 1 actW) 0 1 ∧ camNorm 1 2 (camPre 1 actW) 0 1 ≤ 1)
    ∧ camNorm 1 2 (camPre 1 actW) 0 0 = 0 := by
  have H := cam_norm_bounds 1 2 1 actW (by norm_num) (by norm_num)
  have hlt : listMin (flatCam 1 2 (camPre 1 actW))
      < listMax (flatCam 1 2 (camPre 1 actW)) := by
    norm_num [flatCam, listMin, listMax, camPre, weightedSum, actW,
      List.range_succ, max_def, min_def]
  obtain ⟨hbounds, -, -⟩ := H.1 hlt
  refine ⟨hbounds 0 (by norm_num) 1 (by norm_num), ?_⟩
  norm_num [camNorm, camRange, flatCam, listMin, listMax, camPre, weightedSum,
    actW, List.range_succ, max_def, min_def]

/-! ## Lemmas for the CAM importance formula and the layer scan. -/

theorem foldl_add_eq (g : ℕ → ℚ) :
    ∀ (l : List ℕ) (c : ℚ), l.foldl (fun acc f => acc + g f) c = c + (l.map g).sum := by
  intro l
  induction l with
  | nil => intro c; simp
  | cons v vs ih =>
    intro c
    rw [List.foldl_cons, ih, List.map_cons, List.sum_cons]
    ring

theorem range_map_sum (g : ℕ → ℚ) :
    ∀ n, ((List.range n).map g).sum = ∑ f ∈ Finset.range n, g f := by
  intro n
  induction n with
  | zero => simp
  | succ m ih =>
    rw [List.range_succ, List.map_append, List.sum_append, Finset.sum_range_succ, ih]
    simp

theorem weightedSum_eq (nf : ℕ) (act : ℕ → ℕ → ℕ → ℚ) (y x : ℕ) :
    weightedSum nf act y x = ∑ f ∈ Finset.range nf, act y x f := by
  unfold weightedSum
  rw [foldl_add_eq, zero_add, range_map_sum]

theorem findLastConvFrom_spec (layers : List LayerKind) :
    ∀ i j, findLastConvFrom layers i = some j →
      j ≤ i ∧ layers.getD j .dense = .conv2d
      ∧ ∀ k, j < k → k ≤ i → layers.getD k .dense ≠ .conv2d := by
  intro i
  induction i with
  | zero =>
    intro j h
    unfold findLastConvFrom at h
    split at h
    · next hc =>
      obtain rfl : 0 = j := by simpa using h
      exact ⟨le_refl 0, hc, fun k hk1 hk2 => by omega⟩
    · exact absurd h (by simp)
  | succ n ih =>
    intro j h
    unfold findLastConvFrom at h
    split at h
    · next hc =>
      obtain rfl : n + 1 = j := by simpa using h
      exact ⟨le_refl _, hc, fun k hk1 hk2 => by omega⟩
    · next hc =>
      obtain ⟨h1, h2, h3⟩ := ih j h
      refine ⟨by omega, h2, ?_⟩
      intro k hk1 hk2
      rcases Nat.lt_or_ge k (n + 1) with hk | hk
      · exact h3 k hk1 (by omega)
      · have hkn : k = n + 1 := by omega
        rw [hkn]
        exact hc

theorem findLastConv_spec (layers : List LayerKind) (i : ℕ)
    (h : findLastConv layers = some i) :
    i < layers.length ∧ layers.getD i .dense = .conv2d
    ∧ ∀ j, i < j → j < layers.length → layers.getD j .dense ≠ .conv2d := by
  unfold findLastConv at h
  cases hlen : layers.length with
  | zero => rw [hlen] at h; exact absurd h (by simp)
  | succ n =>
    rw [hlen] at h
    obtain ⟨h1, h2, h3⟩ := findLastConvFrom_spec layers n i h
    exact ⟨by omega, h2, fun j hj1 hj2 => h3 j hj1 (by omega)⟩

/-- C5.  The pre-normalization CAM score of `computeCAM` at each spatial
cell equals `ReLU` of the plain sum of that cell's values over all `F`
filters; and the layer picked for the activation tensor is the
convolutional layer with the highest index: it is in range, is `Conv2D`,
and no layer with a larger index is `Conv2D`. -/
theorem cam_importance (nf : ℕ) (act : ℕ → ℕ → ℕ → ℚ) (y x : ℕ)
    (layers : List LayerKind) (i : ℕ) (hfind : findLastConv layers = some i) :
    camPre nf act y x = max 0 (∑ f ∈ Finset.range nf, act y x f)
    ∧ i < layers.length
    ∧ layers.getD i .dense = .conv2d
    ∧ (∀ j, i < j → j < layers.length → layers.getD j .dense ≠ .conv2d) := by
  obtain ⟨h1, h2, h3⟩ := findLastConv_spec layers i hfind
  refine ⟨?_, h1, h2, h3⟩
  rw [camPre, weightedSum_eq]

/-- C5 witness: the concrete layer stack
`[Conv2D, MaxPooling2D, Conv2D, Flatten, Dense]` (last conv at index 2)
and a 2-filter activation with values `f` at each cell. -/
theorem cam_importance_witness :
    camPre 2 actC5 0 0 = max 0 (∑ f ∈ Finset.range 2, actC5 0 0 f)
    ∧ 2 < layersC5.length
    ∧ layersC5.getD 2 .dense = .conv2d
    ∧ (∀ j, 2 < j → j < layersC5.length → layersC5.getD j .dense ≠ .conv2d) :=
  cam_importance 2 actC5 0 0 layersC5 2 (by decide)

/-! ## Lemmas about `jsRound` and the two hot-colormap implementations. -/

theorem jsRound_mono {q r : ℚ} (h : q ≤ r) : jsRound q ≤ jsRound r :=
  Int.floor_le_floor (by linarith)

theorem jsRound_zero : jsRound 0 = 0 := by
  norm_num [jsRound]

theorem jsRound_255 : jsRound 255 = 255 := by
  norm_num [jsRound]

/-- The red channels of `camHot` and `hotColor` agree: clamping after
rounding equals rounding the clamped ramp. -/
theorem camHot_r_eq (v : ℚ) :
    min 255 (jsRound (v * 3 * 255)) = jsRound (255 * min 1 (v * 3)) := by
  rcases le_or_lt (v * 3) 1 with hc | hc
  · rw [min_eq_right hc, min_eq_right (a := (255 : ℤ))]
    · exact congrArg jsRound (by ring)
    · calc jsRound (v * 3 * 255) ≤ jsRound 255 := jsRound_mono (by linarith)
        _ = 255 := jsRound_255
  · rw [min_eq_left (le_of_lt hc), min_eq_left (a := (255 : ℤ))]
    · rw [mul_one, jsRound_255]
    · calc (255 : ℤ) = jsRound 255 := jsRound_255.symm
        _ ≤ jsRound (v * 3 * 255) := jsRound_mono (by nlinarith)

/-- The green/blue channel shape of `camHot` and `hotColor` agree for
every offset value `u` (`u = v - 0.33` or `u = v - 0.67`). -/
theorem camHot_chan_eq (u : ℚ) :
    min 255 (jsRound (max 0 u * 3 * 255)) = jsRound (255 * max 0 (min 1 (u * 3))) := by
  rcases le_or_lt u 0 with hu | hu
  · rw [max_eq_left hu,
      max_eq_left (le_trans (min_le_right (1 : ℚ) (u * 3)) (by linarith))]
    norm_num [jsRound_zero]
  · rw [max_eq_right (le_of_lt hu)]
    rcases le_or_lt (u * 3) 1 with hc | hc
    · rw [min_eq_right hc, max_eq_right (by linarith : (0 : ℚ) ≤ u * 3),
        min_eq_right (b := jsRound (u * 3 * 255))]
      · exact congrArg jsRound (by ring)
      · calc jsRound (u * 3 * 255) ≤ jsRound 255 := jsRound_mono (by linarith)
          _ = 255 := jsRound_255
    · rw [min_eq_left (le_of_lt hc), max_eq_right (by norm_num : (0 : ℚ) ≤ 1),
        min_eq_left (b := jsRound (u * 3 * 255))]
      · rw [mul_one, jsRound_255]
      · calc (255 : ℤ) = jsRound 255 := jsRound_255.symm
          _ ≤ jsRound (u * 3 * 255) := jsRound_mono (by nlinarith)

/-- C6 counterexample: at importance value `v = 1.0` the blue channel of
both hot-colormap implementations is `252`, not `255`: the 0.67
threshold makes the blue ramp `(1 - 0.67) * 3 = 0.99`, and
`round(0.99 * 255) = 252`.  The claim that blue reaches its maximum 255
by `v = 1.0` is false. -/
theorem hot_blue_at_one :
    (hotColor 1).b = 252 ∧ (camHot 1).b = 252 ∧ (hotColor 1).b ≠ 255 := by
  norm_num [hotColor, camHot, jsRound]

/-- C6 amended: for `v ∈ [0,1]`: `v = 0` maps to `(0,0,0)`; the red
channel reaches its maximum 255 by `v = 1/3` and the green channel by
`v = 2/3`; every channel stays clamped within `[0, 255]`; but the blue
channel peaks at `252` at `v = 1.0` (it never reaches 255, because its
segment ramps from the 0.67 threshold, not from 2/3).  The inline
colormap of `computeCAM` agrees with `hotColor` everywhere on `[0,1]`. -/
theorem hot_colormap (v : ℚ) (h0 : 0 ≤ v) (h1 : v ≤ 1) :
    hotColor 0 = ⟨0, 0, 0⟩
    ∧ (1 / 3 ≤ v → (hotColor v).r = 255)
    ∧ (2 / 3 ≤ v → (hotColor v).g = 255)
    ∧ (hotColor 1).b = 252
    ∧ (0 ≤ (hotColor v).r ∧ (hotColor v).r ≤ 255
       ∧ 0 ≤ (hotColor v).g ∧ (hotColor v).g ≤ 255
       ∧ 0 ≤ (hotColor v).b ∧ (hotColor v).b ≤ 252)
    ∧ camHot v = hotColor v := by
  refine ⟨by norm_num [hotColor, jsRound], ?_, ?_, by norm_num [hotColor, jsRound],
    ⟨?_, ?_, ?_, ?_, ?_, ?_⟩, ?_⟩
  · intro hv
    show jsRound (255 * min 1 (v * 3)) = 255
    rw [min_eq_left (by linarith), mul_one, jsRound_255]
  · intro hv
    show jsRound (255 * max 0 (min 1 ((v - 33 / 100) * 3))) = 255
    rw [min_eq_left (by linarith), max_eq_right (by norm_num : (0 : ℚ) ≤ 1),
      mul_one, jsRound_255]
  · show 0 ≤ jsRound (255 * min 1 (v * 3))
    calc (0 : ℤ) = jsRound 0 := jsRound_zero.symm
      _ ≤ _ := jsRound_mono (by nlinarith [le_min (by norm_num : (0:ℚ) ≤ 1) (by linarith : (0:ℚ) ≤ v * 3)])
  · show jsRound (255 * min 1 (v * 3)) ≤ 255
    calc jsRound (255 * min 1 (v * 3)) ≤ jsRound 255 :=
        jsRound_mono (by nlinarith [min_le_left (1 : ℚ) (v * 3)])
      _ = 255 := jsRound_255
  · show 0 ≤ jsRound (255 * max 0 (min 1 ((v - 33 / 100) * 3)))
    calc (0 : ℤ) = jsRound 0 := jsRound_zero.symm
      _ ≤ _ := jsRound_mono (by nlinarith [le_max_left (0 : ℚ) (min 1 ((v - 33 / 100) * 3))])
  · show jsRound (255 * max 0 (min 1 ((v - 33 / 100) * 3))) ≤ 255
    have hle : max 0 (min 1 ((v - 33 / 100) * 3)) ≤ 1 :=
      max_le (by norm_num) (min_le_left _ _)
    calc jsRound (255 * max 0 (min 1 ((v - 33 / 100) * 3))) ≤ jsRound 255 :=
        jsRound_mono (by nlinarith)
      _ = 255 := jsRound_255
  · show 0 ≤ jsRound (255 * max 0 (min 1 ((v - 67 / 100) * 3)))
    calc (0 : ℤ) = jsRound 0 := jsRound_zero.symm
      _ ≤ _ := jsRound_mono (by nlinarith [le_max_left (0 : ℚ) (min 1 ((v - 67 / 100) * 3))])
  · show jsRound (255 * max 0 (min 1 ((v - 67 / 100) * 3))) ≤ 252
    have hle : max 0 (min 1 ((v - 67 / 100) * 3)) ≤ 99 / 100 :=
      max_le (by norm_num) (le_trans (min_le_right _ _) (by linarith))
    calc jsRound (255 * max 0 (min 1 ((v - 67 / 100) * 3)))
        ≤ jsRound (255 * (99 / 100)) := jsRound_mono (by nlinarith)
      _ = 252 := by norm_num [jsRound]
  · show camHot v = hotColor v
    unfold camHot hotColor
    rw [RGB.mk.injEq]
    exact ⟨camHot_r_eq v, camHot_chan_eq (v - 33 / 100), camHot_chan_eq (v - 67 / 100)⟩

/-- C6 witness: the amended theorem at `v = 5/6`: red and green are
saturated at 255 and the two implementations agree. -/
theorem hot_colormap_witness :
    (hotColor (5 / 6)).r = 255 ∧ (hotColor (5 / 6)).g = 255
    ∧ camHot (5 / 6) = hotColor (5 / 6) := by
  have H := hot_colormap (5 / 6) (by norm_num) (by norm_num)
  exact ⟨H.2.1 (by norm_num), H.2.2.1 (by norm_num), H.2.2.2.2.2⟩

end CnnVis
